import Mathlib

/-!
Verification of the PCA-based image compression core
(`compress_image.py`, function `compress_image`) against its design
specification.

The embedding follows the source line by line:
  * the component-count selector (lines 30-32) is embedded exactly over ℚ,
    with Python's `int()` (truncation toward zero) modelled by `pyInt`;
  * the per-channel loop with its clip step (lines 37-53), the channel
    stacking and the `astype(np.uint8)` quantization (lines 56-59) are
    embedded as total functions over matrices valued in an arbitrary
    linear ordered field `K` with a floor function — the exact model of
    the float arrays of the source; theorems hold for every such `K`
    (in particular `K = ℝ`, the idealized float semantics), and concrete
    witnesses instantiate `K = ℚ` so that they evaluate;
  * PIL's `Image.open` + `convert('RGB')` normalization (lines 16-20) is
    embedded by `loadAsRGB` over an abstract `PILImage` carrying its mode;
  * the sklearn call `PCA(n_components=k).fit_transform` followed by
    `inverse_transform` (lines 42-48) is external library code; it is
    modelled by a function parameter `pca : PCAFn E K` together with the
    predicate `IsPCAReconstruction`, which states the documented
    mathematical semantics of that composite: center the data by column
    (feature) means, apply a symmetric idempotent projection of rank at
    most `k` that is Frobenius-optimal among rank-≤k approximations
    (Eckart-Young), and add the means back;
  * the `try/except ... raise e` wrapper (lines 14, 72-74) is embedded by
    `compress` re-raising the result of `compressBody` unchanged.
-/

namespace ImageCompression

open Matrix BigOperators

variable {K : Type} [LinearOrderedField K]

/-- Python's `int()` applied to a real (float) value: truncation toward
zero, embedded over ℚ. -/
def pyInt (x : ℚ) : ℤ := if x < 0 then ⌈x⌉ else ⌊x⌋

/-- Lines 30-32 of `compress_image.py`:
`max_components = min(height, width)`;
`n_components = max(1, int(max_components * quality_percentage / 100))`;
`n_components = min(n_components, max_components)`. -/
def nComponents (height width : ℕ) (q : ℚ) : ℤ :=
  min (max 1 (pyInt (((min height width : ℕ) : ℚ) * q / 100))) ((min height width : ℕ) : ℤ)

/-- Modelled from the spec (section 4.2), for comparison with the code's
`nComponents`: "compute `max_components = min(H, W)`; compute
`k = floor(max_components * q / 100)`; clamp `k` to be at least 1 and at
most `max_components`". -/
def specComponentCount (H W : ℕ) (q : ℚ) : ℤ :=
  max 1 (min ⌊((min H W : ℕ) : ℚ) * q / 100⌋ ((min H W : ℕ) : ℤ))

/-- An H×W matrix over the scalar field, the value space of one color
channel during the transform. -/
abbrev Mat (K : Type) (h w : ℕ) : Type := Matrix (Fin h) (Fin w) K

/-- Column (feature) mean of a channel matrix: sklearn's PCA centers the
data matrix, whose rows are the samples, by its per-column means. -/
def colMean {h w : ℕ} (M : Mat K h w) (j : Fin w) : K := (∑ i, M i j) / h

/-- The centered data matrix used by the decomposition. -/
def centered {h w : ℕ} (M : Mat K h w) : Mat K h w :=
  Matrix.of fun i j => M i j - colMean M j

/-- The matrix every row of which is the column-mean row of `M`. -/
def meanMat {h w : ℕ} (M : Mat K h w) : Mat K h w :=
  Matrix.of fun _ j => colMean M j

/-- Squared Frobenius norm, the reconstruction-error functional that the
principal-component decomposition minimizes. -/
def frobSq {h w : ℕ} (A : Mat K h w) : K := ∑ i, ∑ j, (A i j) ^ 2

/-- Semantics of the external library composite
`PCA(n_components=k).fit_transform(M)` followed by `inverse_transform`
(lines 42-48 of `compress_image.py`), per sklearn's documentation: the
data is centered by column means, projected onto the span of the top-k
right singular vectors, and the projection is inverted by adding the
means back. `P` is the induced projection matrix `Vkᵀ Vk`: symmetric,
idempotent, of rank at most `k`, and (Eckart-Young) the projected matrix
is a Frobenius-optimal approximation of the centered data among all
matrices of rank at most `k`. -/
def IsPCAReconstruction {h w : ℕ} (k : ℕ) (M R : Mat K h w) : Prop :=
  ∃ P : Matrix (Fin w) (Fin w) K,
    P.IsSymm ∧ P * P = P ∧ P.rank ≤ k ∧
    (∀ B : Mat K h w, B.rank ≤ k →
      frobSq (centered M - centered M * P) ≤ frobSq (centered M - B)) ∧
    R = centered M * P + meanMat M

/-- An in-memory raster image as produced by `np.array(img)`: a height, a
width, and an 8-bit value for each row, column and color channel (the
`Fin 3` index; 0 = red, 1 = green, 2 = blue). -/
@[ext]
structure Img where
  height : ℕ
  width : ℕ
  pix : ℕ → ℕ → Fin 3 → ℕ

/-- Pixel values representable as 8-bit unsigned integers, the invariant
of a decoded raster image. -/
def Img.Valid (img : Img) : Prop :=
  ∀ i j (c : Fin 3), i < img.height → j < img.width → img.pix i j c ≤ 255

/-- Line 39 of `compress_image.py`: `channel_data = img_array[:, :, channel]`,
one channel extracted as a matrix over the scalar field. -/
def channelMatrix (img : Img) (c : Fin 3) : Mat K img.height img.width :=
  Matrix.of fun i j => (img.pix i j c : K)

/-- Line 51 of `compress_image.py`:
`np.clip(channel_reconstructed, 0, 255)` on one entry. -/
def clipVal (x : K) : K := min 255 (max 0 x)

/-- Line 51 applied entrywise to the reconstructed channel. -/
def clipMat {h w : ℕ} (A : Mat K h w) : Mat K h w :=
  Matrix.of fun i j => clipVal (A i j)

/-- Line 59 of `compress_image.py`: `astype(np.uint8)`, truncation toward
zero of a float; it is only ever applied to clipped (hence nonnegative)
values, where truncation toward zero coincides with the floor. -/
def toUint8 [FloorRing K] (x : K) : ℕ := (⌊x⌋).toNat

/-- Lines 56-62 of `compress_image.py`:
`np.stack(compressed_channels, axis=2)` followed by `astype(np.uint8)`
and `Image.fromarray(..., 'RGB')`: the three processed channel matrices
are interleaved, in their original order, into a raster image of the
same dimensions. Indices outside the raster are mapped to 0 (the array
holds no data there). -/
def reassemble [FloorRing K] {h w : ℕ} (A0 A1 A2 : Mat K h w) : Img :=
  { height := h
    width := w
    pix := fun i j c =>
      if hij : i < h ∧ j < w then
        toUint8 ((if c = 0 then A0 else if c = 1 then A1 else A2) ⟨i, hij.1⟩ ⟨j, hij.2⟩)
      else 0 }

/-- The external decomposition routine as passed to the core: for a
component count and a channel matrix it returns a reconstructed matrix or
fails (sklearn raises on invalid input, e.g. an empty data matrix). `E`
is the type of raised errors. -/
def PCAFn (E K : Type) : Type :=
  (k height width : ℕ) → Matrix (Fin height) (Fin width) K →
    Except E (Matrix (Fin height) (Fin width) K)

/-- The component count of one compression call, as handed to the
decomposition (`PCA(n_components=n_components)`). -/
def kOf (img : Img) (q : ℚ) : ℕ := (nComponents img.height img.width q).toNat

/-- Lines 35-59 of `compress_image.py`: the per-channel loop. Each channel
is extracted, decomposed and reconstructed by `pca`, clipped to [0, 255],
and collected; a raised error aborts the whole computation. The three
clipped channels are then stacked and quantized by `reassemble`. -/
def compressBody [FloorRing K] {E : Type} (pca : PCAFn E K) (img : Img) (q : ℚ) :
    Except E Img :=
  match pca (kOf img q) img.height img.width (channelMatrix img 0) with
  | Except.error e => Except.error e
  | Except.ok R0 =>
    match pca (kOf img q) img.height img.width (channelMatrix img 1) with
    | Except.error e => Except.error e
    | Except.ok R1 =>
      match pca (kOf img q) img.height img.width (channelMatrix img 2) with
      | Except.error e => Except.error e
      | Except.ok R2 => Except.ok (reassemble (clipMat R0) (clipMat R1) (clipMat R2))

/-- Lines 14 and 72-74 of `compress_image.py`: the whole transform runs
inside `try: ... except Exception as e: print(...); raise e` — a success
is returned as is and a failure is re-raised unchanged. -/
def compress [FloorRing K] {E : Type} (pca : PCAFn E K) (img : Img) (q : ℚ) :
    Except E Img :=
  match compressBody pca img q with
  | Except.ok v => Except.ok v
  | Except.error e => Except.error e

/-- A decomposition stub that always returns the column-mean matrix. It
conforms to `IsPCAReconstruction` exactly on matrices whose centered part
vanishes (e.g. any matrix with a single row), which is what the concrete
witnesses below use. -/
def pcaMean : PCAFn String K :=
  fun _ _ _ M => Except.ok (meanMat M)

/-- A decomposition stub that always raises, used to witness error
propagation. -/
def pcaRaise : PCAFn String K :=
  fun _ _ _ _ => Except.error "SVD did not converge"

/-- Extract the image from a successful result (dummy image on failure);
only used to phrase closed concrete statements. -/
def outOf {E : Type} (r : Except E Img) : Img :=
  match r with
  | Except.ok v => v
  | Except.error _ => { height := 0, width := 0, pix := fun _ _ _ => 0 }

/-- Concrete single-pixel image data: pixel (128, 64, 200). -/
def pxW : ℕ → ℕ → Fin 3 → ℕ :=
  fun _ _ c => if c = 0 then 128 else if c = 1 then 64 else 200

/-- Concrete 1×1 test image. -/
def imgW : Img := { height := 1, width := 1, pix := pxW }

/-- Concrete single-pixel image data agreeing with `pxW` on the red
channel only: pixel (128, 99, 77). -/
def pxB : ℕ → ℕ → Fin 3 → ℕ :=
  fun _ _ c => if c = 0 then 128 else if c = 1 then 99 else 77

/-- Concrete 2×2 constant channel matrix with value 128. -/
def c128 : Mat ℚ 2 2 := Matrix.of fun _ _ => (128 : ℚ)

/-- Soundness of a decomposition routine at one input: whatever it
returns successfully satisfies the PCA reconstruction semantics. -/
def SoundAt {E : Type} (pca : PCAFn E K) (k h w : ℕ) (M : Mat K h w) : Prop :=
  ∀ R, pca k h w M = Except.ok R → IsPCAReconstruction k M R

/-! ### Helper lemmas -/

theorem pyInt_of_nonneg {x : ℚ} (hx : 0 ≤ x) : pyInt x = ⌊x⌋ := by
  simp [pyInt, not_lt.mpr hx]

theorem pyInt_nonpos {x : ℚ} (hx : x ≤ 0) : pyInt x ≤ 0 := by
  unfold pyInt
  split
  · exact Int.ceil_le.mpr (by exact_mod_cast hx)
  · exact Int.floor_nonpos hx

theorem nComponents_eq_spec (H W : ℕ) (q : ℚ) (hH : 1 ≤ H) (hW : 1 ≤ W) :
    nComponents H W q = specComponentCount H W q := by
  unfold nComponents specComponentCount
  have hm : (1 : ℤ) ≤ ((min H W : ℕ) : ℤ) := by
    have : 1 ≤ min H W := le_min hH hW
    exact_mod_cast this
  rcases le_or_lt 0 (((min H W : ℕ) : ℚ) * q / 100) with hx | hx
  · rw [pyInt_of_nonneg hx]
    have hf : 0 ≤ ⌊((min H W : ℕ) : ℚ) * q / 100⌋ := Int.floor_nonneg.mpr hx
    omega
  · have hc : pyInt (((min H W : ℕ) : ℚ) * q / 100) ≤ 0 := pyInt_nonpos hx.le
    have hf : ⌊((min H W : ℕ) : ℚ) * q / 100⌋ ≤ 0 := Int.floor_nonpos hx.le
    omega

theorem nComponents_nonpos_quality (H W : ℕ) (q : ℚ) (hH : 1 ≤ H) (hW : 1 ≤ W)
    (hq : q ≤ 0) : nComponents H W q = 1 := by
  unfold nComponents
  have hm : (1 : ℤ) ≤ ((min H W : ℕ) : ℤ) := by
    have : 1 ≤ min H W := le_min hH hW
    exact_mod_cast this
  have hx : ((min H W : ℕ) : ℚ) * q / 100 ≤ 0 := by
    have h1 : ((min H W : ℕ) : ℚ) * q ≤ 0 :=
      mul_nonpos_of_nonneg_of_nonpos (by positivity) hq
    rw [div_eq_mul_inv]
    exact mul_nonpos_of_nonpos_of_nonneg h1 (by norm_num)
  have := pyInt_nonpos hx
  omega

theorem nComponents_ge_hundred (H W : ℕ) (q : ℚ) (hH : 1 ≤ H) (hW : 1 ≤ W)
    (hq : 100 ≤ q) : nComponents H W q = ((min H W : ℕ) : ℤ) := by
  unfold nComponents
  have hm : (1 : ℤ) ≤ ((min H W : ℕ) : ℤ) := by
    have : 1 ≤ min H W := le_min hH hW
    exact_mod_cast this
  have hmQ : (0 : ℚ) ≤ ((min H W : ℕ) : ℚ) := by positivity
  have hge : ((min H W : ℕ) : ℚ) ≤ ((min H W : ℕ) : ℚ) * q / 100 := by
    have h1 : ((min H W : ℕ) : ℚ) * 100 ≤ ((min H W : ℕ) : ℚ) * q :=
      mul_le_mul_of_nonneg_left hq hmQ
    have h2 : ((min H W : ℕ) : ℚ) * 100 / 100 ≤ ((min H W : ℕ) : ℚ) * q / 100 :=
      (div_le_div_iff_of_pos_right (by norm_num)).mpr h1
    calc ((min H W : ℕ) : ℚ) = ((min H W : ℕ) : ℚ) * 100 / 100 := by ring
      _ ≤ ((min H W : ℕ) : ℚ) * q / 100 := h2
  have hx : 0 ≤ ((min H W : ℕ) : ℚ) * q / 100 := le_trans hmQ hge
  rw [pyInt_of_nonneg hx]
  have hfl : ((min H W : ℕ) : ℤ) ≤ ⌊((min H W : ℕ) : ℚ) * q / 100⌋ :=
    Int.le_floor.mpr (by exact_mod_cast hge)
  omega

theorem nComponents_bounds (H W : ℕ) (q : ℚ) (hH : 1 ≤ H) (hW : 1 ≤ W) :
    1 ≤ nComponents H W q ∧ nComponents H W q ≤ ((min H W : ℕ) : ℤ) := by
  unfold nComponents
  have hm : (1 : ℤ) ≤ ((min H W : ℕ) : ℤ) := by
    have : 1 ≤ min H W := le_min hH hW
    exact_mod_cast this
  omega

theorem kOf_hundred (h w : ℕ) (px : ℕ → ℕ → Fin 3 → ℕ) (hh : 1 ≤ h) (hw : 1 ≤ w) :
    kOf (Img.mk h w px) 100 = min h w := by
  unfold kOf
  rw [nComponents_ge_hundred h w 100 hh hw le_rfl]
  exact Int.toNat_natCast _

theorem centered_add_meanMat {h w : ℕ} (M : Mat K h w) : centered M + meanMat M = M := by
  ext i j
  simp [centered, meanMat, Matrix.add_apply]

theorem frobSq_nonneg {h w : ℕ} (A : Mat K h w) : 0 ≤ frobSq A := by
  unfold frobSq
  exact Finset.sum_nonneg fun i _ => Finset.sum_nonneg fun j _ => sq_nonneg _

theorem frobSq_zero {h w : ℕ} : frobSq (0 : Mat K h w) = 0 := by
  simp [frobSq]

theorem eq_zero_of_frobSq_nonpos {h w : ℕ} {A : Mat K h w} (hA : frobSq A ≤ 0) :
    A = 0 := by
  have h0 : frobSq A = 0 := le_antisymm hA (frobSq_nonneg A)
  unfold frobSq at h0
  rw [Finset.sum_eq_zero_iff_of_nonneg
    (fun i _ => Finset.sum_nonneg fun j _ => sq_nonneg (A i j))] at h0
  ext i j
  have hrow := h0 i (Finset.mem_univ i)
  rw [Finset.sum_eq_zero_iff_of_nonneg (fun j _ => sq_nonneg (A i j))] at hrow
  have := hrow j (Finset.mem_univ j)
  simpa using sq_eq_zero_iff.mp this

theorem pca_exact_of_rank_le {h w k : ℕ} {M R : Mat K h w}
    (hrank : (centered M).rank ≤ k) (hR : IsPCAReconstruction k M R) : R = M := by
  obtain ⟨P, _, _, _, hopt, hRdef⟩ := hR
  have h1 := hopt (centered M) hrank
  rw [sub_self, frobSq_zero] at h1
  have h3 : centered M - centered M * P = 0 := eq_zero_of_frobSq_nonpos h1
  rw [hRdef, ← sub_eq_zero.mp h3]
  exact centered_add_meanMat M

theorem pca_full_rank_exact {h w : ℕ} {M R : Mat K h w}
    (hR : IsPCAReconstruction (min h w) M R) : R = M :=
  pca_exact_of_rank_le
    (le_min ((centered M).rank_le_height) ((centered M).rank_le_width)) hR

theorem meanMat_eq_of_centered_zero {h w : ℕ} {M : Mat K h w}
    (hc : centered M = 0) : meanMat M = M := by
  have := centered_add_meanMat M
  rw [hc, zero_add] at this
  exact this

theorem pca_exact_of_centered_zero {h w k : ℕ} {M R : Mat K h w}
    (hc : centered M = 0) (hR : IsPCAReconstruction k M R) : R = M := by
  obtain ⟨P, _, _, _, _, hRdef⟩ := hR
  rw [hRdef, hc, Matrix.zero_mul, zero_add]
  exact meanMat_eq_of_centered_zero hc

theorem isPCA_meanMat_of_centered_zero {h w : ℕ} {M : Mat K h w}
    (hc : centered M = 0) (k : ℕ) : IsPCAReconstruction k M (meanMat M) := by
  refine ⟨0, Matrix.isSymm_zero, by rw [mul_zero], ?_, ?_, ?_⟩
  · rw [Matrix.rank_zero]
    exact Nat.zero_le k
  · intro B _
    rw [hc, Matrix.zero_mul, sub_zero, frobSq_zero]
    exact frobSq_nonneg _
  · rw [hc, Matrix.zero_mul, zero_add]

theorem centered_eq_zero_of_const_rows {h w : ℕ} {M : Mat K h w} (hh : 1 ≤ h)
    (hconst : ∀ (i i' : Fin h) (j : Fin w), M i j = M i' j) : centered M = 0 := by
  ext i j
  have hsum : ∑ i', M i' j = (h : K) * M i j := by
    rw [Finset.sum_congr rfl (fun i' _ => hconst i' i j)]
    simp [Finset.sum_const, Finset.card_univ, nsmul_eq_mul]
  have hK : (h : K) ≠ 0 := Nat.cast_ne_zero.mpr (by omega)
  simp only [centered, colMean, Matrix.of_apply, hsum, Matrix.zero_apply]
  rw [mul_div_cancel_left₀ _ hK]
  exact sub_self _

theorem centered_one_row {w : ℕ} (M : Mat K 1 w) : centered M = 0 := by
  apply centered_eq_zero_of_const_rows le_rfl
  intro i i' j
  rw [Subsingleton.elim i i']

theorem pcaMean_soundAt_one_row {w : ℕ} (k : ℕ) (M : Mat K 1 w) :
    SoundAt (pcaMean (K := K)) k 1 w M := by
  intro R hR
  have hRm : meanMat M = R := by
    simpa [pcaMean] using hR
  rw [← hRm]
  exact isPCA_meanMat_of_centered_zero (centered_one_row M) k

theorem fin3_eq : ∀ c : Fin 3, c = 0 ∨ c = 1 ∨ c = 2 := by decide

theorem compress_ok_iff [FloorRing K] {E : Type} (pca : PCAFn E K) (img : Img)
    (q : ℚ) (out : Img) :
    compress pca img q = Except.ok out ↔
    ∃ R0 R1 R2,
      pca (kOf img q) img.height img.width (channelMatrix img 0) = Except.ok R0 ∧
      pca (kOf img q) img.height img.width (channelMatrix img 1) = Except.ok R1 ∧
      pca (kOf img q) img.height img.width (channelMatrix img 2) = Except.ok R2 ∧
      out = reassemble (clipMat R0) (clipMat R1) (clipMat R2) := by
  unfold compress compressBody
  cases h0 : pca (kOf img q) img.height img.width (channelMatrix img 0) with
  | error e => simp
  | ok R0 =>
    cases h1 : pca (kOf img q) img.height img.width (channelMatrix img 1) with
    | error e => simp
    | ok R1 =>
      cases h2 : pca (kOf img q) img.height img.width (channelMatrix img 2) with
      | error e => simp
      | ok R2 =>
        simp only [Except.ok.injEq]
        constructor
        · intro hout
          exact ⟨R0, R1, R2, rfl, rfl, rfl, hout.symm⟩
        · rintro ⟨S0, S1, S2, hS0, hS1, hS2, hout⟩
          cases hS0
          cases hS1
          cases hS2
          exact hout.symm

theorem toUint8_clipVal_le [FloorRing K] (x : K) : toUint8 (clipVal x) ≤ 255 := by
  unfold toUint8 clipVal
  have hle : min (255 : K) (max 0 x) ≤ ((255 : ℕ) : K) := by
    push_cast
    exact min_le_left _ _
  have h1 : ⌊min (255 : K) (max 0 x)⌋ ≤ ((255 : ℕ) : ℤ) := by
    calc ⌊min (255 : K) (max 0 x)⌋ ≤ ⌊((255 : ℕ) : K)⌋ := Int.floor_le_floor hle
      _ = ((255 : ℕ) : ℤ) := Int.floor_natCast _
  omega

theorem toUint8_clipVal_natCast [FloorRing K] {n : ℕ} (hn : n ≤ 255) :
    toUint8 (clipVal ((n : K))) = n := by
  unfold toUint8 clipVal
  have h0 : max (0 : K) (n : K) = (n : K) := max_eq_right (by positivity)
  have h1 : min (255 : K) (n : K) = (n : K) := by
    apply min_eq_right
    have : ((n : ℕ) : K) ≤ ((255 : ℕ) : K) := Nat.cast_le.mpr hn
    push_cast at this
    exact this
  rw [h0, h1, Int.floor_natCast, Int.toNat_natCast]

theorem reassemble_pix_in [FloorRing K] {h w : ℕ} (A0 A1 A2 : Mat K h w)
    {i j : ℕ} (hi : i < h) (hj : j < w) (c : Fin 3) :
    (reassemble A0 A1 A2).pix i j c
      = toUint8 ((if c = 0 then A0 else if c = 1 then A1 else A2) ⟨i, hi⟩ ⟨j, hj⟩) := by
  simp [reassemble, hi, hj]

theorem reassemble_pix_out [FloorRing K] {h w : ℕ} (A0 A1 A2 : Mat K h w)
    {i j : ℕ} (hij : ¬(i < h ∧ j < w)) (c : Fin 3) :
    (reassemble A0 A1 A2).pix i j c = 0 := by
  simp only [reassemble]
  rw [dif_neg hij]

theorem reassemble_clip_pix_le [FloorRing K] {h w : ℕ} (R0 R1 R2 : Mat K h w)
    (i j : ℕ) (c : Fin 3) :
    (reassemble (clipMat R0) (clipMat R1) (clipMat R2)).pix i j c ≤ 255 := by
  by_cases hij : i < h ∧ j < w
  · rw [reassemble_pix_in _ _ _ hij.1 hij.2]
    rcases eq_or_ne c 0 with hc | hc0
    · simp only [hc, if_pos rfl, clipMat, Matrix.of_apply]
      exact toUint8_clipVal_le _
    · rcases eq_or_ne c 1 with hc | hc1
      · simp only [hc0, hc, if_neg, if_pos rfl, clipMat, Matrix.of_apply]
        rw [if_neg (by simp)]
        exact toUint8_clipVal_le _
      · rw [if_neg hc0, if_neg hc1]
        simp only [clipMat, Matrix.of_apply]
        exact toUint8_clipVal_le _
  · rw [reassemble_pix_out _ _ _ hij]
    omega

/-! ### Claim theorems -/

/-- C1: for every quality percentage q (any value, including q ≤ 0 and
q ≥ 100) and all dimensions H ≥ 1, W ≥ 1, the component count computed by
lines 30-32 of `compress_image.py` equals the clamp of
⌊min(H,W)·q/100⌋ to the closed range [1, min(H,W)]; in particular q ≤ 0
yields 1 without error, q ≥ 100 yields min(H,W), and every quality in
[1, 100] yields a count k with 1 ≤ k ≤ min(H,W). -/
theorem selector_component_count_spec (H W : ℕ) (q : ℚ) (hH : 1 ≤ H) (hW : 1 ≤ W) :
    nComponents H W q = specComponentCount H W q ∧
    (q ≤ 0 → nComponents H W q = 1) ∧
    (100 ≤ q → nComponents H W q = ((min H W : ℕ) : ℤ)) ∧
    (1 ≤ q → q ≤ 100 →
      1 ≤ nComponents H W q ∧ nComponents H W q ≤ ((min H W : ℕ) : ℤ)) :=
  ⟨nComponents_eq_spec H W q hH hW,
   fun hq => nComponents_nonpos_quality H W q hH hW hq,
   fun hq => nComponents_ge_hundred H W q hH hW hq,
   fun _ _ => nComponents_bounds H W q hH hW⟩

/-- Witness for C1: quality 0 on a 10×10 image clamps to one component. -/
theorem selector_component_count_spec_witness : nComponents 10 10 0 = 1 :=
  (selector_component_count_spec 10 10 0 (by norm_num) (by norm_num)).2.1 le_rfl

/-- C2: every pixel channel value of a successfully reassembled output
image is an integer in [0, 255] (it is a ℕ by type and is at most 255);
out-of-range reconstructed values are saturated at the boundaries by the
clip step — a negative value becomes 0 and a value above 255 becomes 255,
never a wrap-around or a rescaling — and the result is quantized to an
8-bit unsigned integer. -/
theorem output_pixels_in_range [FloorRing K] {E : Type} (pca : PCAFn E K)
    (img out : Img) (q : ℚ) (hok : compress pca img q = Except.ok out) :
    (∀ i j (c : Fin 3), out.pix i j c ≤ 255) ∧
    (∀ x : K, x < 0 → clipVal x = 0) ∧
    (∀ x : K, 255 < x → clipVal x = 255) ∧
    (∀ x : K, 0 ≤ x → x ≤ 255 → clipVal x = x) ∧
    (∀ x : K, toUint8 (clipVal x) ≤ 255) := by
  refine ⟨?_, ?_, ?_, ?_, fun x => toUint8_clipVal_le x⟩
  · obtain ⟨R0, R1, R2, -, -, -, hout⟩ := (compress_ok_iff pca img q out).mp hok
    intro i j c
    rw [hout]
    exact reassemble_clip_pix_le R0 R1 R2 i j c
  · intro x hx
    unfold clipVal
    rw [max_eq_left hx.le, min_eq_right (by norm_num)]
  · intro x hx
    unfold clipVal
    rw [max_eq_right (le_trans (by norm_num) hx.le), min_eq_left hx.le]
  · intro x hx0 hx1
    unfold clipVal
    rw [max_eq_right hx0, min_eq_right hx1]

/-- Witness for C2: the compression of the concrete 1×1 image succeeds and
its red channel value is at most 255. -/
theorem output_pixels_in_range_witness :
    (outOf (compress (pcaMean (K := ℚ)) imgW 80)).pix 0 0 0 ≤ 255 := by
  obtain ⟨o, ho⟩ : ∃ o, compress (pcaMean (K := ℚ)) imgW 80 = Except.ok o := ⟨_, rfl⟩
  have := (output_pixels_in_range (pcaMean (K := ℚ)) imgW o 80 ho).1 0 0 0
  rw [ho]
  exact this

/-- C6: the compress operation is all-or-nothing — an error raised by the
decomposition on any channel is returned unchanged as the result of the
whole call (the `except ... raise e` wrapper re-raises the same error),
and a successful call returns the image reassembled from all three
processed channels, never a partially-reassembled image. -/
theorem compress_all_or_nothing [FloorRing K] {E : Type} (pca : PCAFn E K)
    (img : Img) (q : ℚ) :
    (∀ e, pca (kOf img q) img.height img.width (channelMatrix img 0) = Except.error e →
      compress pca img q = Except.error e) ∧
    (∀ R0 e, pca (kOf img q) img.height img.width (channelMatrix img 0) = Except.ok R0 →
      pca (kOf img q) img.height img.width (channelMatrix img 1) = Except.error e →
      compress pca img q = Except.error e) ∧
    (∀ R0 R1 e, pca (kOf img q) img.height img.width (channelMatrix img 0) = Except.ok R0 →
      pca (kOf img q) img.height img.width (channelMatrix img 1) = Except.ok R1 →
      pca (kOf img q) img.height img.width (channelMatrix img 2) = Except.error e →
      compress pca img q = Except.error e) ∧
    (∀ R0 R1 R2, pca (kOf img q) img.height img.width (channelMatrix img 0) = Except.ok R0 →
      pca (kOf img q) img.height img.width (channelMatrix img 1) = Except.ok R1 →
      pca (kOf img q) img.height img.width (channelMatrix img 2) = Except.ok R2 →
      compress pca img q
        = Except.ok (reassemble (clipMat R0) (clipMat R1) (clipMat R2))) := by
  refine ⟨?_, ?_, ?_, ?_⟩
  · intro e h0
    unfold compress compressBody
    rw [h0]
  · intro R0 e h0 h1
    unfold compress compressBody
    rw [h0, h1]
  · intro R0 R1 e h0 h1 h2
    unfold compress compressBody
    rw [h0, h1, h2]
  · intro R0 R1 R2 h0 h1 h2
    unfold compress compressBody
    rw [h0, h1, h2]

/-- Witness for C6: a decomposition failure on the concrete 1×1 image
propagates unchanged through `compress`. -/
theorem compress_all_or_nothing_witness :
    compress (pcaRaise (K := ℚ)) imgW 50 = Except.error "SVD did not converge" :=
  (compress_all_or_nothing (pcaRaise (K := ℚ)) imgW 50).1 _ rfl

/-- C3: for every three-channel input image and every quality in (0, 100],
a successfully reassembled output image has exactly the input's H×W
dimensions, and each of its exactly three channels (the `Fin 3` index) is
derived from the reconstruction of the same-numbered input channel, so
the red, green, blue order of the input is preserved. -/
theorem compress_preserves_dimensions [FloorRing K] {E : Type} (pca : PCAFn E K)
    (img out : Img) (q : ℚ) (hq0 : 0 < q) (hq1 : q ≤ 100)
    (hok : compress pca img q = Except.ok out) :
    out.height = img.height ∧ out.width = img.width ∧
    ∀ c : Fin 3, ∃ Rc,
      pca (kOf img q) img.height img.width (channelMatrix img c) = Except.ok Rc ∧
      ∀ i j (hi : i < img.height) (hj : j < img.width),
        out.pix i j c = toUint8 (clipVal (Rc ⟨i, hi⟩ ⟨j, hj⟩)) := by
  obtain ⟨R0, R1, R2, h0, h1, h2, hout⟩ := (compress_ok_iff pca img q out).mp hok
  subst hout
  refine ⟨rfl, rfl, ?_⟩
  intro c
  fin_cases c
  · refine ⟨R0, h0, ?_⟩
    intro i j hi hj
    rw [reassemble_pix_in _ _ _ hi hj]
    simp [clipMat]
  · refine ⟨R1, h1, ?_⟩
    intro i j hi hj
    rw [reassemble_pix_in _ _ _ hi hj]
    simp [clipMat]
  · refine ⟨R2, h2, ?_⟩
    intro i j hi hj
    rw [reassemble_pix_in _ _ _ hi hj]
    simp [clipMat]

/-- Witness for C3: the concrete 1×1 compression preserves the height. -/
theorem compress_preserves_dimensions_witness :
    (outOf (compress (pcaMean (K := ℚ)) imgW 80)).height = imgW.height := by
  obtain ⟨o, ho⟩ : ∃ o, compress (pcaMean (K := ℚ)) imgW 80 = Except.ok o := ⟨_, rfl⟩
  have := (compress_preserves_dimensions (pcaMean (K := ℚ)) imgW o 80
    (by norm_num) (by norm_num) ho).1
  rw [ho]
  exact this

/-- C8: channel noninterference — for a fixed quality and fixed H×W
dimensions, the output on one color channel depends only on that
channel's input data: two inputs agreeing on channel c (with equal
dimensions) yield outputs agreeing everywhere on channel c, whatever the
other two channels hold. -/
theorem channel_noninterference [FloorRing K] {E : Type} (pca : PCAFn E K)
    (h w : ℕ) (pxa pxb : ℕ → ℕ → Fin 3 → ℕ) (outa outb : Img) (q : ℚ) (c : Fin 3)
    (hagree : ∀ i j, i < h → j < w → pxa i j c = pxb i j c)
    (ha : compress pca (Img.mk h w pxa) q = Except.ok outa)
    (hb : compress pca (Img.mk h w pxb) q = Except.ok outb) :
    ∀ i j, outa.pix i j c = outb.pix i j c := by
  have hM : channelMatrix (K := K) (Img.mk h w pxa) c
      = channelMatrix (K := K) (Img.mk h w pxb) c := by
    ext i j
    simp only [channelMatrix, Matrix.of_apply]
    exact_mod_cast hagree i j i.isLt j.isLt
  obtain ⟨R0a, R1a, R2a, h0a, h1a, h2a, houta⟩ := (compress_ok_iff pca _ q outa).mp ha
  obtain ⟨R0b, R1b, R2b, h0b, h1b, h2b, houtb⟩ := (compress_ok_iff pca _ q outb).mp hb
  intro i j
  rw [houta, houtb]
  by_cases hij : i < h ∧ j < w
  · rw [reassemble_pix_in _ _ _ hij.1 hij.2, reassemble_pix_in _ _ _ hij.1 hij.2]
    rcases fin3_eq c with rfl | rfl | rfl
    · rw [hM] at h0a
      rw [Except.ok.inj (h0a.symm.trans h0b)]
      simp
    · rw [hM] at h1a
      rw [Except.ok.inj (h1a.symm.trans h1b)]
      simp
    · rw [hM] at h2a
      rw [Except.ok.inj (h2a.symm.trans h2b)]
      simp
  · rw [reassemble_pix_out _ _ _ hij, reassemble_pix_out _ _ _ hij]

/-- Witness for C8: two concrete single-pixel images sharing only the red
channel produce the same red output value. -/
theorem channel_noninterference_witness :
    (outOf (compress (pcaMean (K := ℚ)) (Img.mk 1 1 pxW) 80)).pix 0 0 0
      = (outOf (compress (pcaMean (K := ℚ)) (Img.mk 1 1 pxB) 80)).pix 0 0 0 := by
  obtain ⟨oa, hoa⟩ : ∃ o, compress (pcaMean (K := ℚ)) (Img.mk 1 1 pxW) 80 = Except.ok o :=
    ⟨_, rfl⟩
  obtain ⟨ob, hob⟩ : ∃ o, compress (pcaMean (K := ℚ)) (Img.mk 1 1 pxB) 80 = Except.ok o :=
    ⟨_, rfl⟩
  have := channel_noninterference (pcaMean (K := ℚ)) 1 1 pxW pxB oa ob 80 0
    (fun _ _ _ _ => rfl) hoa hob 0 0
  rw [hoa, hob]
  exact this

theorem outOf_ok {E : Type} (v : Img) : outOf (E := E) (Except.ok v) = v := rfl

theorem nComponents_one_one (q : ℚ) : nComponents 1 1 q = 1 := by
  unfold nComponents
  simp only [min_self, Nat.cast_one]
  omega

theorem clipVal_nonneg (x : K) : 0 ≤ clipVal x :=
  le_min (by norm_num) (le_max_left 0 x)

theorem clipVal_eq_self {x : K} (hx0 : 0 ≤ x) (hx1 : x ≤ 255) : clipVal x = x := by
  unfold clipVal
  rw [max_eq_right hx0, min_eq_right hx1]

theorem toUint8_intCast_of_nonneg [FloorRing K] {x : K} (hx : 0 ≤ x) :
    ((toUint8 x : ℕ) : ℤ) = ⌊x⌋ := by
  unfold toUint8
  exact Int.toNat_of_nonneg (Int.floor_nonneg.mpr hx)

theorem reassemble_of_channels [FloorRing K] (img : Img)
    (hb : ∀ i j (c : Fin 3), img.pix i j c ≤ 255)
    (hz : ∀ i j (c : Fin 3), ¬(i < img.height ∧ j < img.width) → img.pix i j c = 0) :
    reassemble (clipMat (channelMatrix (K := K) img 0))
      (clipMat (channelMatrix (K := K) img 1))
      (clipMat (channelMatrix (K := K) img 2)) = img := by
  refine Img.ext rfl rfl ?_
  funext i j c
  by_cases hij : i < img.height ∧ j < img.width
  · rw [reassemble_pix_in _ _ _ hij.1 hij.2]
    rcases fin3_eq c with rfl | rfl | rfl
    · rw [if_pos rfl]
      simp only [clipMat, channelMatrix, Matrix.of_apply]
      exact toUint8_clipVal_natCast (hb i j 0)
    · rw [if_neg (by decide), if_pos rfl]
      simp only [clipMat, channelMatrix, Matrix.of_apply]
      exact toUint8_clipVal_natCast (hb i j 1)
    · rw [if_neg (by decide), if_neg (by decide)]
      simp only [clipMat, channelMatrix, Matrix.of_apply]
      exact toUint8_clipVal_natCast (hb i j 2)
  · rw [reassemble_pix_out _ _ _ hij]
    exact (hz i j c hij).symm

/-- C4: a channel matrix with zero variance (all rows identical) and any
component count k ≥ 1 is handled without error — the PCA reconstruction
semantics is satisfiable there — and every conforming reconstruction
equals the original channel exactly (so certainly within one intensity
unit after quantization). -/
theorem zero_variance_channel_handled {h w k : ℕ} (M : Mat K h w)
    (hh : 1 ≤ h) (hk : 1 ≤ k)
    (hconst : ∀ (i i' : Fin h) (j : Fin w), M i j = M i' j) :
    (∃ R, IsPCAReconstruction k M R) ∧
    ∀ R, IsPCAReconstruction k M R → R = M := by
  have hc : centered M = 0 := centered_eq_zero_of_const_rows hh hconst
  exact ⟨⟨meanMat M, isPCA_meanMat_of_centered_zero hc k⟩,
    fun R hR => pca_exact_of_centered_zero hc hR⟩

/-- Witness for C4: the conforming reconstruction of the concrete constant
2×2 channel (value 128) at k = 1 is the channel itself. -/
theorem zero_variance_channel_handled_witness : meanMat c128 = c128 :=
  (zero_variance_channel_handled (K := ℚ) (k := 1) c128 (by norm_num) le_rfl
      (fun _ _ _ => rfl)).2 (meanMat c128)
    (isPCA_meanMat_of_centered_zero
      (centered_eq_zero_of_const_rows (M := c128) (by norm_num) (fun _ _ _ => rfl)) 1)

/-- C5: at quality 100 the selector picks k = min(H, W), every conforming
reconstruction at that full attainable rank reproduces its input channel
exactly, and hence compressing an already-compressed-at-100 image at
quality 100 returns it unchanged (a fixed point, within the zero rounding
tolerance of the exact-arithmetic model). -/
theorem quality100_near_fixed_point [FloorRing K] {E : Type} (pca : PCAFn E K)
    (h w : ℕ) (px : ℕ → ℕ → Fin 3 → ℕ) (out1 out2 : Img)
    (hh : 1 ≤ h) (hw : 1 ≤ w)
    (hsound : ∀ M : Mat K h w, SoundAt pca (min h w) h w M)
    (h1 : compress pca (Img.mk h w px) 100 = Except.ok out1)
    (h2 : compress pca out1 100 = Except.ok out2) :
    kOf (Img.mk h w px) 100 = min h w ∧
    (∀ (M R : Mat K h w), IsPCAReconstruction (min h w) M R → R = M) ∧
    out2 = out1 := by
  refine ⟨kOf_hundred h w px hh hw, fun M R hR => pca_full_rank_exact hR, ?_⟩
  obtain ⟨R0, R1, R2, ha0, ha1, ha2, hout1⟩ := (compress_ok_iff pca _ 100 out1).mp h1
  subst hout1
  obtain ⟨S0, S1, S2, hb0, hb1, hb2, hout2⟩ := (compress_ok_iff pca _ 100 out2).mp h2
  subst hout2
  have hk2 : kOf (reassemble (clipMat R0) (clipMat R1) (clipMat R2)) 100 = min h w :=
    kOf_hundred h w _ hh hw
  rw [hk2] at hb0 hb1 hb2
  have e0 : S0 = channelMatrix (reassemble (clipMat R0) (clipMat R1) (clipMat R2)) 0 :=
    pca_full_rank_exact (hsound _ S0 hb0)
  have e1 : S1 = channelMatrix (reassemble (clipMat R0) (clipMat R1) (clipMat R2)) 1 :=
    pca_full_rank_exact (hsound _ S1 hb1)
  have e2 : S2 = channelMatrix (reassemble (clipMat R0) (clipMat R1) (clipMat R2)) 2 :=
    pca_full_rank_exact (hsound _ S2 hb2)
  rw [e0, e1, e2]
  exact reassemble_of_channels _ (fun i j c => reassemble_clip_pix_le R0 R1 R2 i j c)
    (fun i j c hij => reassemble_pix_out _ _ _ hij c)

/-- Witness for C5: re-compressing the compressed concrete 1×1 image at
quality 100 returns it unchanged. -/
theorem quality100_near_fixed_point_witness :
    outOf (compress (pcaMean (K := ℚ))
        (outOf (compress (pcaMean (K := ℚ)) (Img.mk 1 1 pxW) 100)) 100)
      = outOf (compress (pcaMean (K := ℚ)) (Img.mk 1 1 pxW) 100) := by
  obtain ⟨o1, ho1⟩ : ∃ o, compress (pcaMean (K := ℚ)) (Img.mk 1 1 pxW) 100 = Except.ok o :=
    ⟨_, rfl⟩
  have ho2 : compress (pcaMean (K := ℚ)) o1 100
      = Except.ok (reassemble (clipMat (meanMat (channelMatrix o1 0)))
          (clipMat (meanMat (channelMatrix o1 1)))
          (clipMat (meanMat (channelMatrix o1 2)))) :=
    (compress_ok_iff _ _ _ _).mpr ⟨_, _, _, rfl, rfl, rfl, rfl⟩
  have hfix := (quality100_near_fixed_point (pcaMean (K := ℚ)) 1 1 pxW o1 _ le_rfl le_rfl
    (fun M => pcaMean_soundAt_one_row _ M) ho1 ho2).2.2
  rw [ho1, outOf_ok, ho2, outOf_ok]
  exact hfix

/-- C9: for a 1×1 three-channel image and any quality value, the selector
yields max_components = min(1,1) = 1 and k = 1, the transform succeeds
(given that the decomposition returns, its result is forced by the
conforming semantics), and the reassembled output equals the input
exactly — every channel value identical. -/
theorem single_pixel_identity [FloorRing K] {E : Type} (pca : PCAFn E K)
    (px : ℕ → ℕ → Fin 3 → ℕ) (q : ℚ)
    (hpx : ∀ c : Fin 3, px 0 0 c ≤ 255)
    (hsound : ∀ (k : ℕ) (M : Mat K 1 1), SoundAt pca k 1 1 M)
    (R0 R1 R2 : Mat K 1 1)
    (h0 : pca (kOf (Img.mk 1 1 px) q) 1 1 (channelMatrix (Img.mk 1 1 px) 0) = Except.ok R0)
    (h1 : pca (kOf (Img.mk 1 1 px) q) 1 1 (channelMatrix (Img.mk 1 1 px) 1) = Except.ok R1)
    (h2 : pca (kOf (Img.mk 1 1 px) q) 1 1 (channelMatrix (Img.mk 1 1 px) 2) = Except.ok R2) :
    nComponents 1 1 q = 1 ∧
    compress pca (Img.mk 1 1 px) q
      = Except.ok (reassemble (clipMat R0) (clipMat R1) (clipMat R2)) ∧
    (reassemble (clipMat R0) (clipMat R1) (clipMat R2)).height = 1 ∧
    (reassemble (clipMat R0) (clipMat R1) (clipMat R2)).width = 1 ∧
    ∀ c : Fin 3, (reassemble (clipMat R0) (clipMat R1) (clipMat R2)).pix 0 0 c = px 0 0 c := by
  have hxc : ∀ (c : Fin 3) (R : Mat K 1 1),
      pca (kOf (Img.mk 1 1 px) q) 1 1 (channelMatrix (Img.mk 1 1 px) c) = Except.ok R →
      R = channelMatrix (Img.mk 1 1 px) c := by
    intro c R hR
    exact pca_exact_of_centered_zero (centered_one_row _)
      (hsound _ _ R hR)
  refine ⟨nComponents_one_one q,
    (compress_ok_iff pca _ q _).mpr ⟨R0, R1, R2, h0, h1, h2, rfl⟩, rfl, rfl, ?_⟩
  intro c
  rw [reassemble_pix_in _ _ _ (by norm_num) (by norm_num)]
  rcases fin3_eq c with rfl | rfl | rfl
  · rw [if_pos rfl, hxc 0 R0 h0]
    simp only [clipMat, channelMatrix, Matrix.of_apply]
    exact toUint8_clipVal_natCast (hpx 0)
  · rw [if_neg (by decide), if_pos rfl, hxc 1 R1 h1]
    simp only [clipMat, channelMatrix, Matrix.of_apply]
    exact toUint8_clipVal_natCast (hpx 1)
  · rw [if_neg (by decide), if_neg (by decide), hxc 2 R2 h2]
    simp only [clipMat, channelMatrix, Matrix.of_apply]
    exact toUint8_clipVal_natCast (hpx 2)

/-- Witness for C9: the concrete 1×1 image at the (absurd) quality -5
comes back with its red value 128 intact. -/
theorem single_pixel_identity_witness :
    (reassemble (clipMat (meanMat (channelMatrix (K := ℚ) (Img.mk 1 1 pxW) 0)))
      (clipMat (meanMat (channelMatrix (K := ℚ) (Img.mk 1 1 pxW) 1)))
      (clipMat (meanMat (channelMatrix (K := ℚ) (Img.mk 1 1 pxW) 2)))).pix 0 0 0
      = pxW 0 0 0 :=
  (single_pixel_identity (pcaMean (K := ℚ)) pxW (-5) (by decide)
    (fun k M => pcaMean_soundAt_one_row k M) _ _ _ rfl rfl rfl).2.2.2.2 0

/-- C10: quantization to 8 bits is floor (truncation toward zero of the
clipped, hence nonnegative, value), not round-to-nearest: every output
pixel of channel 0 equals ⌊clip(v, 0, 255)⌋ of the reconstructed value v,
for in-range v the stored value is exactly ⌊v⌋, and the reconstructed
value 254.9 is stored as 254 although round-to-nearest would give 255. -/
theorem quantization_truncates [FloorRing K] {E : Type} (pca : PCAFn E K)
    (img out : Img) (q : ℚ) (R0 : Matrix (Fin img.height) (Fin img.width) K)
    (hok : compress pca img q = Except.ok out)
    (h0 : pca (kOf img q) img.height img.width (channelMatrix img 0) = Except.ok R0) :
    (∀ i j (hi : i < img.height) (hj : j < img.width),
      (out.pix i j 0 : ℤ) = ⌊clipVal (R0 ⟨i, hi⟩ ⟨j, hj⟩)⌋) ∧
    (∀ x : K, 0 ≤ x → x ≤ 255 → (toUint8 (clipVal x) : ℤ) = ⌊x⌋) ∧
    toUint8 (clipVal ((2549 : K) / 10)) = 254 ∧
    round ((2549 : K) / 10) = 255 := by
  have hfrac0 : (0 : K) ≤ (2549 : K) / 10 := by norm_num
  have hfrac1 : (2549 : K) / 10 ≤ 255 := by
    rw [div_le_iff₀ (by norm_num : (0:K) < 10)]
    norm_num
  have hfl : ⌊(2549 : K) / 10⌋ = 254 := by
    rw [Int.floor_eq_iff]
    constructor
    · push_cast
      rw [le_div_iff₀ (by norm_num : (0:K) < 10)]
      norm_num
    · push_cast
      rw [div_lt_iff₀ (by norm_num : (0:K) < 10)]
      norm_num
  refine ⟨?_, ?_, ?_, ?_⟩
  · obtain ⟨T0, T1, T2, hc0, hc1, hc2, hout⟩ := (compress_ok_iff pca img q out).mp hok
    have hT : T0 = R0 := Except.ok.inj (hc0.symm.trans h0)
    subst hT
    subst hout
    intro i j hi hj
    rw [reassemble_pix_in _ _ _ hi hj, if_pos rfl]
    simp only [clipMat, Matrix.of_apply]
    exact toUint8_intCast_of_nonneg (clipVal_nonneg _)
  · intro x hx0 hx1
    rw [clipVal_eq_self hx0 hx1]
    exact toUint8_intCast_of_nonneg hx0
  · rw [clipVal_eq_self hfrac0 hfrac1]
    unfold toUint8
    rw [hfl]
    rfl
  · rw [round_eq]
    have h25 : (2549 : K) / 10 + 1 / 2 = 2554 / 10 := by ring
    rw [h25, Int.floor_eq_iff]
    constructor
    · push_cast
      rw [le_div_iff₀ (by norm_num : (0:K) < 10)]
      norm_num
    · push_cast
      rw [div_lt_iff₀ (by norm_num : (0:K) < 10)]
      norm_num

/-- Witness for C10: at the in-range value 3/2 the stored quantity is its
floor. -/
theorem quantization_truncates_witness :
    (toUint8 (clipVal ((3 : ℚ) / 2)) : ℤ) = ⌊(3 : ℚ) / 2⌋ := by
  obtain ⟨o, ho⟩ : ∃ o, compress (pcaMean (K := ℚ)) imgW 80 = Except.ok o := ⟨_, rfl⟩
  exact (quantization_truncates (pcaMean (K := ℚ)) imgW o 80 _ ho rfl).2.1 _
    (by norm_num) (by norm_num)

end ImageCompression
